import Mathlib

/-!
Shallow embedding of `cederig/dedupler` (`src/main.rs`), a line-deduplication
tool.  The core is `process_file` (main.rs:123-188): an encoding-aware loop
that reads decoded lines with `BufRead::read_line`, strips trailing
whitespace with `str::trim_end`, tests/records membership in a
`HashSet<String>`, writes first occurrences followed by `\n`, counts
`total_lines` / `duplicate_lines` / `lines_written`, and advances a progress
bar by `line.as_bytes().len()` for each line.  `main` (main.rs:47-109) sums
per-file stats over a batch and reports per-file errors without aborting.

Decoded text is modelled as `List Char` (the UTF-8 text produced by the
`encoding_rs_io` decode layer); raw file bytes as `List Nat` (each < 256).
The `HashSet` is modelled by its membership structure: a list of the inserted
keys, consulted only through `∈`.
-/

namespace Dedupler

/-- Rust `char::is_whitespace`: the Unicode `White_Space` property.
`str::trim_end` (main.rs:172) removes trailing characters satisfying this. -/
def rustIsWhitespace (c : Char) : Bool :=
  let n := c.toNat
  (0x09 ≤ n && n ≤ 0x0D) || n == 0x20 || n == 0x85 || n == 0xA0 ||
  n == 0x1680 || (0x2000 ≤ n && n ≤ 0x200A) || n == 0x2028 || n == 0x2029 ||
  n == 0x202F || n == 0x205F || n == 0x3000

/-- Rust `str::trim_end`: remove all trailing whitespace (main.rs:172). -/
def trimEnd (s : List Char) : List Char :=
  (s.reverse.dropWhile rustIsWhitespace).reverse

/-- Helper for `splitLines`: accumulates the current (reversed) partial line. -/
def splitLinesAux : List Char → List Char → List (List Char)
  | [], acc => if acc.isEmpty then [] else [acc.reverse]
  | c :: rest, acc =>
      if c = '\n' then (acc.reverse ++ ['\n']) :: splitLinesAux rest []
      else splitLinesAux rest (c :: acc)

/-- The sequence of lines delivered by repeated `BufRead::read_line`
(main.rs:168): each line includes its trailing `'\n'` if present; a final
fragment with no terminator is still one line; `read_line` returns 0 (loop
ends) exactly at end of input. -/
def splitLines (s : List Char) : List (List Char) :=
  splitLinesAux s []

/-- Number of bytes of the UTF-8 encoding of `c`; `String::as_bytes` in Rust
exposes the UTF-8 representation of the decoded line (main.rs:169). -/
def utf8Len (c : Char) : Nat :=
  if c.toNat < 0x80 then 1
  else if c.toNat < 0x800 then 2
  else if c.toNat < 0x10000 then 3
  else 4

/-- `line.as_bytes().len()` for a decoded line (main.rs:169). -/
def utf8LenStr (s : List Char) : Nat :=
  (s.map utf8Len).sum

/-- The three counters of `Stats` (main.rs:39-45); `duration` is wall-clock
time and is not modelled. -/
structure Stats where
  total_lines : Nat
  duplicate_lines : Nat
  lines_written : Nat
deriving DecidableEq, Repr

def Stats.zero : Stats := ⟨0, 0, 0⟩

/-- State of the dedup loop in `process_file` (main.rs:155-183).
`seen_lines` models the `HashSet<String>` by the list of inserted keys
(consulted only through membership); `output` is the byte stream written to
the sink, as decoded characters; `written` is the sequence of written keys;
`progress` is the sequence of values passed to `pb.set_position`. -/
structure LoopState where
  seen_lines : List (List Char)
  stats : Stats
  output : List Char
  written : List (List Char)
  bytes_read : Nat
  progress : List Nat
deriving DecidableEq, Repr

def initState : LoopState :=
  { seen_lines := [], stats := Stats.zero, output := [], written := [],
    bytes_read := 0, progress := [] }

/-- One iteration of the `while reader.read_line(&mut line)? > 0` loop
(main.rs:168-183): advance `bytes_read` by the line's UTF-8 byte length and
report it, trim trailing whitespace, bump `total_lines`, then either insert
the key and write it followed by a single `'\n'` (bumping `lines_written`)
or bump `duplicate_lines`. -/
def processLine (st : LoopState) (line : List Char) : LoopState :=
  let bytes := st.bytes_read + utf8LenStr line
  let trimmed := trimEnd line
  let total := st.stats.total_lines + 1
  if trimmed ∈ st.seen_lines then
    { st with
      bytes_read := bytes
      progress := st.progress ++ [bytes]
      stats := { total_lines := total,
                 duplicate_lines := st.stats.duplicate_lines + 1,
                 lines_written := st.stats.lines_written } }
  else
    { seen_lines := trimmed :: st.seen_lines
      stats := { total_lines := total,
                 duplicate_lines := st.stats.duplicate_lines,
                 lines_written := st.stats.lines_written + 1 }
      output := st.output ++ trimmed ++ ['\n']
      written := st.written ++ [trimmed]
      bytes_read := bytes
      progress := st.progress ++ [bytes] }

/-- The whole dedup loop over a given sequence of decoded lines. -/
def runLines (lines : List (List Char)) : LoopState :=
  lines.foldl processLine initState

/-- `process_file` (main.rs:123-188) from the point of view of the decoded
text: split into `read_line` lines and run the dedup loop. -/
def process_file (decoded : List Char) : LoopState :=
  runLines (splitLines decoded)

/-- Per-file stats are merged into the run total by summing the three
counters (main.rs:82-84). -/
def addStats (a b : Stats) : Stats :=
  ⟨a.total_lines + b.total_lines,
   a.duplicate_lines + b.duplicate_lines,
   a.lines_written + b.lines_written⟩

/-- The spec-level stats invariant (§3, §8). -/
def statsInv (s : Stats) : Prop :=
  s.total_lines = s.duplicate_lines + s.lines_written

instance (s : Stats) : Decidable (statsInv s) := by
  unfold statsInv; infer_instance

/-- An `encoding_rs` decoder, modelled by its total decode function from raw
bytes to text: `encoding_rs_io` substitutes malformed sequences with
U+FFFD and never fails, so a decoder is a total function. -/
structure Encoding where
  decode : List Nat → List Char

/-- U+FFFD REPLACEMENT CHARACTER. -/
def replChar : Char := Char.ofNat 0xFFFD

/-- Is `b` a UTF-8 continuation byte (`0x80..=0xBF`)? -/
def isCont (b : Nat) : Bool := 0x80 ≤ b && b ≤ 0xBF

/-- Valid second-byte range for a three-byte UTF-8 lead `b1`
(excludes overlong forms and surrogates). -/
def isCont3 (b1 b2 : Nat) : Bool :=
  if b1 = 0xE0 then 0xA0 ≤ b2 && b2 ≤ 0xBF
  else if b1 = 0xED then 0x80 ≤ b2 && b2 ≤ 0x9F
  else isCont b2

/-- Valid second-byte range for a four-byte UTF-8 lead `b1`
(excludes overlong forms and code points above U+10FFFF). -/
def isCont4 (b1 b2 : Nat) : Bool :=
  if b1 = 0xF0 then 0x90 ≤ b2 && b2 ≤ 0xBF
  else if b1 = 0xF4 then 0x80 ≤ b2 && b2 ≤ 0x8F
  else isCont b2

/-- One WHATWG UTF-8 decoding step: given lead byte `b1` and the bytes after
it, the decoded character (U+FFFD for a malformed subsequence) together with
how many bytes of `rest` the step consumed beyond the lead. On an invalid
continuation byte the valid bytes read so far are dropped and decoding
resumes at the offending byte, per the WHATWG algorithm `encoding_rs`
implements. -/
def utf8Step (b1 : Nat) (rest : List Nat) : Char × Nat :=
  if b1 < 0x80 then (Char.ofNat b1, 0)
  else if b1 < 0xC2 then (replChar, 0)
  else if b1 < 0xE0 then
    match rest with
    | [] => (replChar, 0)
    | b2 :: _ =>
      if isCont b2 then (Char.ofNat ((b1 - 0xC0) * 0x40 + (b2 - 0x80)), 1)
      else (replChar, 0)
  else if b1 < 0xF0 then
    match rest with
    | [] => (replChar, 0)
    | b2 :: r2 =>
      if isCont3 b1 b2 then
        match r2 with
        | [] => (replChar, 1)
        | b3 :: _ =>
          if isCont b3 then
            (Char.ofNat (((b1 - 0xE0) * 0x40 + (b2 - 0x80)) * 0x40 + (b3 - 0x80)), 2)
          else (replChar, 1)
      else (replChar, 0)
  else if b1 < 0xF5 then
    match rest with
    | [] => (replChar, 0)
    | b2 :: r2 =>
      if isCont4 b1 b2 then
        match r2 with
        | [] => (replChar, 1)
        | b3 :: r3 =>
          if isCont b3 then
            match r3 with
            | [] => (replChar, 2)
            | b4 :: _ =>
              if isCont b4 then
                (Char.ofNat ((((b1 - 0xF0) * 0x40 + (b2 - 0x80)) * 0x40 +
                  (b3 - 0x80)) * 0x40 + (b4 - 0x80)), 3)
              else (replChar, 2)
          else (replChar, 1)
      else (replChar, 0)
  else (replChar, 0)

/-- Fuel-bounded worker for `decodeUtf8Lossy`. The fuel is an upper bound on
the number of remaining bytes (each step consumes at least the lead byte),
so with fuel `l.length` the empty-fuel branch is never reached. -/
def utf8Go : Nat → List Nat → List Char
  | _, [] => []
  | 0, _ => []
  | fuel + 1, b1 :: rest =>
      (utf8Step b1 rest).1 :: utf8Go fuel (rest.drop (utf8Step b1 rest).2)

/-- WHATWG UTF-8 decoding with replacement, the semantics `encoding_rs`
applies when `process_file` decodes with `UTF_8` (main.rs:140-144): every
malformed subsequence is replaced by U+FFFD, decoding never fails. -/
def decodeUtf8Lossy (l : List Nat) : List Char := utf8Go l.length l

/-- `encoding_rs::UTF_8`, the fallback decoder (main.rs:135). -/
def UTF_8 : Encoding := ⟨decodeUtf8Lossy⟩

/-- The windows-1252 code point for byte `b`: ASCII and `0xA0..=0xFF` map
to the identical code point; `0x80..=0x9F` follow the windows-1252 table. -/
def win1252Point (b : Nat) : Nat :=
  if b < 0x80 || 0xA0 ≤ b then b
  else if b = 0x80 then 0x20AC else if b = 0x82 then 0x201A
  else if b = 0x83 then 0x0192 else if b = 0x84 then 0x201E
  else if b = 0x85 then 0x2026 else if b = 0x86 then 0x2020
  else if b = 0x87 then 0x2021 else if b = 0x88 then 0x02C6
  else if b = 0x89 then 0x2030 else if b = 0x8A then 0x0160
  else if b = 0x8B then 0x2039 else if b = 0x8C then 0x0152
  else if b = 0x8E then 0x017D else if b = 0x91 then 0x2018
  else if b = 0x92 then 0x2019 else if b = 0x93 then 0x201C
  else if b = 0x94 then 0x201D else if b = 0x95 then 0x2022
  else if b = 0x96 then 0x2013 else if b = 0x97 then 0x2014
  else if b = 0x98 then 0x02DC else if b = 0x99 then 0x2122
  else if b = 0x9A then 0x0161 else if b = 0x9B then 0x203A
  else if b = 0x9C then 0x0153 else if b = 0x9E then 0x017E
  else if b = 0x9F then 0x0178 else b

/-- `encoding_rs::WINDOWS_1252`, a single-byte decoder the detector can
select (exercised by the repository's `test_process_file_with_windows1252`). -/
def WINDOWS_1252 : Encoding := ⟨fun bs => bs.map (fun b => Char.ofNat (win1252Point b))⟩

/-- `Encoding::for_label(..).unwrap_or(UTF_8)` (main.rs:135): the result of
looking up the detected label, defaulted to UTF-8 when the label resolves to
no decoder. -/
def for_label_or_utf8 (r : Option Encoding) : Encoding :=
  r.getD UTF_8

/-- `process_file` from raw bytes, given the (detection + label lookup)
outcome `r : Option Encoding` (main.rs:134-144): resolve the decoder, decode
the bytes, run the dedup loop. -/
def processBytes (r : Option Encoding) (bs : List Nat) : LoopState :=
  process_file ((for_label_or_utf8 r).decode bs)

/-- Modelled from the spec (§4.3 step 1, used only to state claims about the
spec's wording): strip exactly one trailing line terminator — CRLF, LF or
bare CR — and nothing else. -/
def stripTerm (l : List Char) : List Char :=
  if (List.isSuffixOf ['\r', '\n'] l) then l.dropLast.dropLast
  else if (List.isSuffixOf ['\n'] l) || (List.isSuffixOf ['\r'] l) then
    l.dropLast
  else l

/-- First occurrences of the distinct elements of `l`, in order. -/
def firstOccur : List (List Char) → List (List Char)
  | [] => []
  | k :: rest => k :: firstOccur (rest.filter (fun x => decide (x ≠ k)))
termination_by l => l.length
decreasing_by
  simp only [List.length_cons]
  exact Nat.lt_succ_of_le (List.length_filter_le _ _)

/-- Closed form of the dedup loop's written sequence: the first occurrences
of the keys of `ks` that are not already in `seen`, in order, where each
kept key is added to `seen`. -/
def firstOccurFrom (seen : List (List Char)) : List (List Char) → List (List Char)
  | [] => []
  | k :: rest =>
      if k ∈ seen then firstOccurFrom seen rest
      else k :: firstOccurFrom (k :: seen) rest

/-- Cumulative sums of `l` starting from `acc` (the successive values of
`bytes_read` reported to the progress bar). -/
def cumSums (acc : Nat) : List Nat → List Nat
  | [] => []
  | n :: rest => (acc + n) :: cumSums (acc + n) rest

/-- State of `main`'s batch loop over a directory (main.rs:69-88): the
accumulated total stats and the (path, message) pairs reported to the error
channel via `eprintln!`. -/
structure BatchState where
  total : Stats
  errs : List (String × String)
deriving DecidableEq, Repr

/-- One batch entry: the file's path together with the outcome of
`process_file` on it (`Ok stats` or an I/O error message). -/
def batchStep (st : BatchState) (entry : String × Except String Stats) : BatchState :=
  match entry.2 with
  | .ok s => { st with total := addStats st.total s }
  | .error e => { st with errs := st.errs ++ [(entry.1, e)] }

/-- `main`'s directory loop (main.rs:69-88): fold `batchStep` over every
enumerated file; an `Err` never stops the fold. -/
def runBatch (entries : List (String × Except String Stats)) : BatchState :=
  entries.foldl batchStep ⟨Stats.zero, []⟩

/-- The observable outcome of one `process_file` run: everything except the
internal `HashSet` representation. -/
def observe (st : LoopState) : Stats × List Char × List (List Char) × Nat × List Nat :=
  (st.stats, st.output, st.written, st.bytes_read, st.progress)

/-! ### Lemmas about `trimEnd` and `splitLines` -/

theorem dropWhile_idem (p : Char → Bool) (l : List Char) :
    (l.dropWhile p).dropWhile p = l.dropWhile p := by
  induction l with
  | nil => rfl
  | cons c rest ih =>
    by_cases h : p c
    · simpa [List.dropWhile_cons, h] using ih
    · simp [List.dropWhile_cons, h]

theorem trimEnd_idem (l : List Char) : trimEnd (trimEnd l) = trimEnd l := by
  simp [trimEnd, dropWhile_idem]

theorem trimEnd_append_ws (l : List Char) (c : Char)
    (h : rustIsWhitespace c = true) : trimEnd (l ++ [c]) = trimEnd l := by
  simp [trimEnd, List.dropWhile_cons, h]

theorem mem_of_mem_trimEnd (l : List Char) (c : Char) (h : c ∈ trimEnd l) :
    c ∈ l := by
  simp only [trimEnd, List.mem_reverse] at h
  exact List.mem_reverse.mp ((List.dropWhile_sublist _).subset h)

theorem ws_newline : rustIsWhitespace ('\n') = true := by decide

theorem splitLinesAux_append (m : List Char) (h : '\n' ∉ m) :
    ∀ (rest acc : List Char),
      splitLinesAux (m ++ rest) acc = splitLinesAux rest (m.reverse ++ acc) := by
  induction m with
  | nil => intro rest acc; simp
  | cons c m ih =>
    intro rest acc
    simp only [List.mem_cons, not_or] at h
    have hc : ¬ (c = '\n') := fun hEq => h.1 (by rw [hEq])
    show splitLinesAux (c :: (m ++ rest)) acc = _
    rw [splitLinesAux, if_neg hc, ih h.2 rest (c :: acc)]
    simp

theorem splitLines_flatten (ks : List (List Char))
    (h : ∀ k ∈ ks, '\n' ∉ k) :
    splitLines (List.flatten (ks.map (fun k => k ++ ['\n']))) =
      ks.map (fun k => k ++ ['\n']) := by
  induction ks with
  | nil => rfl
  | cons k rest ih =>
    simp only [List.map_cons, List.flatten_cons, splitLines]
    rw [List.append_assoc, List.singleton_append,
        splitLinesAux_append k (h k (List.mem_cons_self _ _))]
    show (if ('\n') = '\n' then _ else _) = _
    rw [if_pos rfl]
    simp only [List.append_nil, List.reverse_reverse]
    exact congrArg _ (ih (fun x hx => h x (List.mem_cons_of_mem _ hx)))

theorem splitLinesAux_mem_shape (s : List Char) :
    ∀ (acc l : List Char), '\n' ∉ acc → l ∈ splitLinesAux s acc →
      (∃ m, l = m ++ ['\n'] ∧ '\n' ∉ m) ∨
        ('\n' ∉ l ∧ l ≠ []) := by
  induction s with
  | nil =>
    intro acc l hacc hl
    simp only [splitLinesAux] at hl
    split at hl
    · exact absurd hl (List.not_mem_nil _)
    · right
      rename_i hne
      rcases List.mem_singleton.mp hl with rfl
      constructor
      · simpa using hacc
      · simp only [ne_eq, List.reverse_eq_nil_iff]
        intro hEq
        exact hne (by simp [hEq, List.isEmpty_nil])
  | cons c rest ih =>
    intro acc l hacc hl
    by_cases hc : c = '\n'
    · subst hc
      simp only [splitLinesAux, if_pos rfl] at hl
      rcases List.mem_cons.mp hl with rfl | hl
      · left
        exact ⟨acc.reverse, rfl, by simpa using hacc⟩
      · exact ih [] l (List.not_mem_nil _) hl
    · simp only [splitLinesAux, if_neg hc] at hl
      refine ih (c :: acc) l ?_ hl
      intro hmem
      rcases List.mem_cons.mp hmem with hEq | hmem
      · exact hc hEq.symm
      · exact hacc hmem

theorem nl_not_mem_key (s l : List Char) (h : l ∈ splitLines s) :
    '\n' ∉ trimEnd l := by
  rcases splitLinesAux_mem_shape s [] l (List.not_mem_nil _) h with
    ⟨m, rfl, hm⟩ | ⟨hl, _⟩
  · rw [trimEnd_append_ws m _ ws_newline]
    exact fun hc => hm (mem_of_mem_trimEnd m _ hc)
  · exact fun hc => hl (mem_of_mem_trimEnd l _ hc)

/-! ### Lemmas about the dedup loop -/

theorem processLine_statsInv (st : LoopState) (l : List Char)
    (h : statsInv st.stats) : statsInv (processLine st l).stats := by
  unfold statsInv at *
  by_cases hm : trimEnd l ∈ st.seen_lines <;> simp [processLine, hm] <;> omega

theorem foldl_statsInv (lines : List (List Char)) :
    ∀ st : LoopState, statsInv st.stats →
      statsInv (lines.foldl processLine st).stats := by
  induction lines with
  | nil => intro st h; exact h
  | cons l rest ih => intro st h; exact ih _ (processLine_statsInv st l h)

theorem processLine_total (st : LoopState) (l : List Char) :
    (processLine st l).stats.total_lines = st.stats.total_lines + 1 := by
  by_cases hm : trimEnd l ∈ st.seen_lines <;> simp [processLine, hm]

theorem foldl_total (lines : List (List Char)) :
    ∀ st : LoopState,
      (lines.foldl processLine st).stats.total_lines =
        st.stats.total_lines + lines.length := by
  induction lines with
  | nil => intro st; simp
  | cons l rest ih =>
    intro st
    rw [List.foldl_cons, ih, processLine_total]
    simp [Nat.add_assoc, Nat.add_comm 1]

theorem foldl_written_seen (lines : List (List Char)) :
    ∀ st : LoopState,
      (lines.foldl processLine st).written =
        st.written ++ firstOccurFrom st.seen_lines (lines.map trimEnd) ∧
      (lines.foldl processLine st).seen_lines =
        (firstOccurFrom st.seen_lines (lines.map trimEnd)).reverse ++
          st.seen_lines := by
  induction lines with
  | nil => intro st; simp [firstOccurFrom]
  | cons l rest ih =>
    intro st
    rcases ih (processLine st l) with ⟨ihw, ihs⟩
    rw [List.foldl_cons] at *
    by_cases hm : trimEnd l ∈ st.seen_lines
    · have hw : (processLine st l).written = st.written := by
        simp [processLine, hm]
      have hs : (processLine st l).seen_lines = st.seen_lines := by
        simp [processLine, hm]
      constructor
      · rw [ihw, hw, hs]; simp [firstOccurFrom, hm]
      · rw [ihs, hs]; simp [firstOccurFrom, hm]
    · have hw : (processLine st l).written = st.written ++ [trimEnd l] := by
        simp [processLine, hm]
      have hs : (processLine st l).seen_lines = trimEnd l :: st.seen_lines := by
        simp [processLine, hm]
      constructor
      · rw [ihw, hw, hs]
        simp [firstOccurFrom, hm]
      · rw [ihs, hs]
        simp [firstOccurFrom, hm]

theorem foldl_output (lines : List (List Char)) :
    ∀ st : LoopState,
      st.output = List.flatten (st.written.map (fun k => k ++ ['\n'])) →
      (lines.foldl processLine st).output =
        List.flatten ((lines.foldl processLine st).written.map
          (fun k => k ++ ['\n'])) := by
  induction lines with
  | nil => intro st h; exact h
  | cons l rest ih =>
    intro st h
    rw [List.foldl_cons]
    refine ih _ ?_
    by_cases hm : trimEnd l ∈ st.seen_lines
    · simpa [processLine, hm] using h
    · simp [processLine, hm, h]

theorem foldl_progress (lines : List (List Char)) :
    ∀ st : LoopState,
      (lines.foldl processLine st).progress =
        st.progress ++ cumSums st.bytes_read (lines.map utf8LenStr) ∧
      (lines.foldl processLine st).bytes_read =
        st.bytes_read + (lines.map utf8LenStr).sum := by
  induction lines with
  | nil => intro st; simp [cumSums]
  | cons l rest ih =>
    intro st
    have hpr : (processLine st l).progress =
        st.progress ++ [st.bytes_read + utf8LenStr l] := by
      by_cases hm : trimEnd l ∈ st.seen_lines <;> simp [processLine, hm]
    have hbr : (processLine st l).bytes_read =
        st.bytes_read + utf8LenStr l := by
      by_cases hm : trimEnd l ∈ st.seen_lines <;> simp [processLine, hm]
    rcases ih (processLine st l) with ⟨h1, h2⟩
    rw [List.foldl_cons]
    constructor
    · rw [h1, hpr, hbr]
      simp [cumSums]
    · rw [h2, hbr]
      simp [Nat.add_assoc]

theorem cumSums_le (l : List Nat) :
    ∀ acc, ∀ x ∈ cumSums acc l, acc ≤ x := by
  induction l with
  | nil => intro acc x hx; simp [cumSums] at hx
  | cons n rest ih =>
    intro acc x hx
    simp only [cumSums] at hx
    rcases List.mem_cons.mp hx with rfl | hx
    · exact Nat.le_add_right _ _
    · exact Nat.le_trans (Nat.le_add_right _ _) (ih (acc + n) x hx)

theorem cumSums_chain (l : List Nat) :
    ∀ acc, List.Chain' (· ≤ ·) (cumSums acc l) := by
  induction l with
  | nil => intro acc; simp [cumSums]
  | cons n rest ih =>
    intro acc
    simp only [cumSums]
    rw [List.chain'_cons']
    refine ⟨?_, ih (acc + n)⟩
    intro y hy
    exact cumSums_le rest (acc + n) y (List.mem_of_mem_head? hy)

theorem firstOccurFrom_sound (ks : List (List Char)) :
    ∀ seen, (firstOccurFrom seen ks).Nodup ∧
      ∀ x ∈ firstOccurFrom seen ks, x ∈ ks ∧ x ∉ seen := by
  induction ks with
  | nil => intro seen; simp [firstOccurFrom]
  | cons k rest ih =>
    intro seen
    by_cases hm : k ∈ seen
    · simp only [firstOccurFrom, if_pos hm]
      rcases ih seen with ⟨h1, h2⟩
      exact ⟨h1, fun x hx =>
        ⟨List.mem_cons_of_mem _ (h2 x hx).1, (h2 x hx).2⟩⟩
    · simp only [firstOccurFrom, if_neg hm]
      rcases ih (k :: seen) with ⟨h1, h2⟩
      refine ⟨List.nodup_cons.mpr ⟨?_, h1⟩, ?_⟩
      · intro hk
        exact (h2 k hk).2 (List.mem_cons_self _ _)
      · intro x hx
        rcases List.mem_cons.mp hx with rfl | hx
        · exact ⟨List.mem_cons_self _ _, hm⟩
        · exact ⟨List.mem_cons_of_mem _ (h2 x hx).1,
            fun hxs => (h2 x hx).2 (List.mem_cons_of_mem _ hxs)⟩

theorem firstOccur_cons (k : List Char) (rest : List (List Char)) :
    firstOccur (k :: rest) =
      k :: firstOccur (rest.filter (fun x => decide (x ≠ k))) := by
  rw [firstOccur]

theorem firstOccurFrom_filter (ks : List (List Char)) :
    ∀ seen, firstOccurFrom seen ks =
      firstOccur (ks.filter (fun x => decide (x ∉ seen))) := by
  induction ks with
  | nil => intro seen; simp [firstOccurFrom, firstOccur]
  | cons k rest ih =>
    intro seen
    by_cases hm : k ∈ seen
    · rw [firstOccurFrom, if_pos hm, List.filter_cons]
      have hd : (decide (k ∉ seen)) = false := by simp [hm]
      rw [hd, if_neg (by simp)]
      exact ih seen
    · rw [firstOccurFrom, if_neg hm, List.filter_cons]
      have hd : (decide (k ∉ seen)) = true := by simp [hm]
      rw [hd, if_pos rfl, firstOccur_cons, ih (k :: seen), List.filter_filter]
      have heq : List.filter (fun x => decide (x ∉ (k :: seen))) rest =
          List.filter (fun a => decide (a ≠ k) && decide (a ∉ seen)) rest := by
        refine List.filter_congr ?_
        intro x _
        by_cases h1 : x = k <;> by_cases h2 : x ∈ seen <;>
          simp [h1, h2, List.mem_cons]
      rw [heq]

theorem firstOccurFrom_nil (ks : List (List Char)) :
    firstOccurFrom [] ks = firstOccur ks := by
  rw [firstOccurFrom_filter]
  congr 1
  simp

theorem foldl_fresh_keys (ks : List (List Char)) :
    ∀ st : LoopState, ks.Nodup → (∀ k ∈ ks, trimEnd k = k) →
      (∀ k ∈ ks, k ∉ st.seen_lines) →
      ((ks.map (fun k => k ++ ['\n'])).foldl processLine st).stats.duplicate_lines
          = st.stats.duplicate_lines ∧
      ((ks.map (fun k => k ++ ['\n'])).foldl processLine st).written
          = st.written ++ ks ∧
      ((ks.map (fun k => k ++ ['\n'])).foldl processLine st).output
          = st.output ++ List.flatten (ks.map (fun k => k ++ ['\n'])) := by
  induction ks with
  | nil => intro st _ _ _; simp
  | cons k rest ih =>
    intro st hnd htr hfresh
    have hk : trimEnd (k ++ ['\n']) = k := by
      rw [trimEnd_append_ws k _ (by decide)]
      exact htr k (List.mem_cons_self _ _)
    have hmem : k ∉ st.seen_lines := hfresh k (List.mem_cons_self _ _)
    have hseen : (processLine st (k ++ ['\n'])).seen_lines =
        k :: st.seen_lines := by
      simp [processLine, hmem, hk]
    have hfresh2 : ∀ x ∈ rest,
        x ∉ (processLine st (k ++ ['\n'])).seen_lines := by
      intro x hx
      rw [hseen]
      intro hmem2
      rcases List.mem_cons.mp hmem2 with rfl | h2
      · exact (List.nodup_cons.mp hnd).1 hx
      · exact hfresh x (List.mem_cons_of_mem _ hx) h2
    rcases ih (processLine st (k ++ ['\n'])) (List.nodup_cons.mp hnd).2
      (fun x hx => htr x (List.mem_cons_of_mem _ hx)) hfresh2 with ⟨h1, h2, h3⟩
    have hdup : (processLine st (k ++ ['\n'])).stats.duplicate_lines =
        st.stats.duplicate_lines := by
      simp [processLine, hmem, hk]
    have hwr : (processLine st (k ++ ['\n'])).written = st.written ++ [k] := by
      simp [processLine, hmem, hk]
    have hout : (processLine st (k ++ ['\n'])).output =
        st.output ++ (k ++ ['\n']) := by
      simp [processLine, hmem, hk]
    rw [List.map_cons, List.foldl_cons]
    refine ⟨?_, ?_, ?_⟩
    · rw [h1, hdup]
    · rw [h2, hwr]; simp
    · rw [h3, hout]; simp

theorem runLines_take_succ (lines : List (List Char)) (i : Nat)
    (k : List Char) (h : lines[i]? = some k) :
    runLines (lines.take (i + 1)) =
      processLine (runLines (lines.take i)) k := by
  unfold runLines
  rw [List.take_succ, h, List.foldl_append]
  rfl

theorem foldl_batch (entries : List (String × Except String Stats)) :
    ∀ st : BatchState,
      (entries.foldl batchStep st).total =
        (entries.filterMap (fun e => match e.2 with
          | .ok s => some s
          | .error _ => none)).foldl addStats st.total ∧
      (entries.foldl batchStep st).errs =
        st.errs ++ entries.filterMap (fun e => match e.2 with
          | .ok _ => none
          | .error m => some (e.1, m)) := by
  induction entries with
  | nil => intro st; simp
  | cons e rest ih =>
    intro st
    rcases e with ⟨p, r⟩
    cases r with
    | ok s =>
      rcases ih { st with total := addStats st.total s } with ⟨h1, h2⟩
      constructor
      · rw [List.foldl_cons,
          show batchStep st (p, Except.ok s) =
            { st with total := addStats st.total s } from rfl, h1]
        simp [List.filterMap_cons]
      · rw [List.foldl_cons,
          show batchStep st (p, Except.ok s) =
            { st with total := addStats st.total s } from rfl, h2]
        simp [List.filterMap_cons]
    | error m =>
      rcases ih { st with errs := st.errs ++ [(p, m)] } with ⟨h1, h2⟩
      constructor
      · rw [List.foldl_cons,
          show batchStep st (p, Except.error m) =
            { st with errs := st.errs ++ [(p, m)] } from rfl, h1]
        simp [List.filterMap_cons]
      · rw [List.foldl_cons,
          show batchStep st (p, Except.error m) =
            { st with errs := st.errs ++ [(p, m)] } from rfl, h2]
        simp [List.filterMap_cons]

theorem foldl_seen_equiv (lines : List (List Char)) :
    ∀ (s1 s2 : List (List Char)) (stats : Stats) (out : List Char)
      (w : List (List Char)) (br : Nat) (pr : List Nat),
      (∀ k, k ∈ s1 ↔ k ∈ s2) →
      observe (lines.foldl processLine ⟨s1, stats, out, w, br, pr⟩) =
        observe (lines.foldl processLine ⟨s2, stats, out, w, br, pr⟩) := by
  induction lines with
  | nil => intro s1 s2 stats out w br pr h; rfl
  | cons l rest ih =>
    intro s1 s2 stats out w br pr h
    rw [List.foldl_cons, List.foldl_cons]
    by_cases hm : trimEnd l ∈ s1
    · have hm2 : trimEnd l ∈ s2 := (h _).mp hm
      rw [show processLine ⟨s1, stats, out, w, br, pr⟩ l =
            ⟨s1, ⟨stats.total_lines + 1, stats.duplicate_lines + 1,
              stats.lines_written⟩, out, w, br + utf8LenStr l,
              pr ++ [br + utf8LenStr l]⟩ by simp [processLine, hm],
          show processLine ⟨s2, stats, out, w, br, pr⟩ l =
            ⟨s2, ⟨stats.total_lines + 1, stats.duplicate_lines + 1,
              stats.lines_written⟩, out, w, br + utf8LenStr l,
              pr ++ [br + utf8LenStr l]⟩ by simp [processLine, hm2]]
      exact ih s1 s2 _ _ _ _ _ h
    · have hm2 : trimEnd l ∉ s2 := fun hx => hm ((h _).mpr hx)
      rw [show processLine ⟨s1, stats, out, w, br, pr⟩ l =
            ⟨trimEnd l :: s1, ⟨stats.total_lines + 1, stats.duplicate_lines,
              stats.lines_written + 1⟩, out ++ trimEnd l ++ ['\n'],
              w ++ [trimEnd l], br + utf8LenStr l,
              pr ++ [br + utf8LenStr l]⟩ by simp [processLine, hm],
          show processLine ⟨s2, stats, out, w, br, pr⟩ l =
            ⟨trimEnd l :: s2, ⟨stats.total_lines + 1, stats.duplicate_lines,
              stats.lines_written + 1⟩, out ++ trimEnd l ++ ['\n'],
              w ++ [trimEnd l], br + utf8LenStr l,
              pr ++ [br + utf8LenStr l]⟩ by simp [processLine, hm2]]
      refine ih _ _ _ _ _ _ _ ?_
      intro k
      rw [List.mem_cons, List.mem_cons, h k]

theorem splitLines_no_newline (s : List Char) (hne : s ≠ [])
    (hnl : '\n' ∉ s) : splitLines s = [s] := by
  have h1 := splitLinesAux_append s hnl [] []
  rw [List.append_nil] at h1
  have h2 : s.reverse.isEmpty = false := by
    cases hrev : s.reverse with
    | nil => exact absurd (List.reverse_eq_nil_iff.mp hrev) hne
    | cons a t => rfl
  unfold splitLines
  rw [h1]
  simp [splitLinesAux, h2]

/-! ### Claim theorems -/

/-- Claim C1: for every input processed by `process_file` the returned stats
satisfy `total_lines = duplicate_lines + lines_written`, and the same
equation holds for the run-level total obtained by summing the three
counters over all successfully processed files (main.rs:82-84). -/
theorem C1_stats_invariant :
    (∀ s : List Char, statsInv (process_file s).stats) ∧
    (∀ inputs : List (List Char),
      statsInv (inputs.foldl
        (fun acc i => addStats acc (process_file i).stats) Stats.zero)) := by
  have hfile : ∀ s : List Char, statsInv (process_file s).stats :=
    fun s => foldl_statsInv (splitLines s) initState rfl
  refine ⟨hfile, ?_⟩
  intro inputs
  have hgen : ∀ acc : Stats, statsInv acc →
      statsInv (inputs.foldl
        (fun acc i => addStats acc (process_file i).stats) acc) := by
    induction inputs with
    | nil => intro acc h; exact h
    | cons i rest ih =>
      intro acc h
      rw [List.foldl_cons]
      refine ih _ ?_
      have h2 := hfile i
      simp only [statsInv, addStats] at h h2 ⊢
      omega
  exact hgen Stats.zero rfl

/-- Claim C5: a completely empty input yields all-zero stats and an empty
output (also through the byte-level pipeline with the fallback decoder). -/
theorem C5_empty_input :
    process_file [] = initState ∧
    (process_file []).stats = Stats.zero ∧
    (process_file []).output = [] ∧
    processBytes none [] = initState :=
  ⟨rfl, rfl, rfl, rfl⟩

/-- Claim C6: a file whose final line has no trailing terminator is still
read and processed as one line: the spec's scenario
`"line1\nline2\nline3"` yields `"line1\nline2\nline3\n"` with stats
(3,0,3), and in general any nonempty terminator-free fragment is processed
as exactly one line. -/
theorem C6_unterminated_final_line :
    (process_file "line1\nline2\nline3".toList).stats = ⟨3, 0, 3⟩ ∧
    (process_file "line1\nline2\nline3".toList).output =
      "line1\nline2\nline3\n".toList ∧
    (∀ s : List Char, s ≠ [] → '\n' ∉ s →
      splitLines s = [s] ∧
      (process_file s).stats = ⟨1, 0, 1⟩ ∧
      (process_file s).output = trimEnd s ++ ['\n']) := by
  refine ⟨by decide, by decide, ?_⟩
  intro s hne hnl
  have hsp := splitLines_no_newline s hne hnl
  refine ⟨hsp, ?_, ?_⟩
  · unfold process_file runLines
    rw [hsp]
    simp [processLine, initState, Stats.zero]
  · unfold process_file runLines
    rw [hsp]
    simp [processLine, initState, Stats.zero]

/-- Witness for C6 at the concrete fragment `"abc"`. -/
theorem C6_unterminated_final_line_witness :
    splitLines "abc".toList = ["abc".toList] ∧
    (process_file "abc".toList).stats = ⟨1, 0, 1⟩ ∧
    (process_file "abc".toList).output = trimEnd "abc".toList ++ ['\n'] :=
  C6_unterminated_final_line.2.2 "abc".toList (by decide) (by decide)

/-- Claim C4 (counterexample): on the repository's own windows-1252 test
content `b"h\xe9llo\n"` (6 raw bytes) the progress position reported after
the line is 7 — the UTF-8 byte length of the decoded line buffer
(main.rs:169), not the raw bytes consumed. -/
theorem C4_counterexample :
    (processBytes (some WINDOWS_1252)
      [0x68, 0xE9, 0x6C, 0x6C, 0x6F, 0x0A]).progress = [7] ∧
    ([0x68, 0xE9, 0x6C, 0x6C, 0x6F, 0x0A] : List Nat).length = 6 := by
  decide

/-- Claim C4 (amended): the progress signal is advanced, for every processed
line, by the UTF-8 byte length of the decoded line buffer (not the raw
input bytes), so the reported sequence is the cumulative sums of decoded
line lengths and is monotonically non-decreasing. -/
theorem C4_progress_decoded_bytes (s : List Char) :
    (process_file s).progress =
      cumSums 0 ((splitLines s).map utf8LenStr) ∧
    List.Chain' (· ≤ ·) (process_file s).progress ∧
    (process_file s).bytes_read = ((splitLines s).map utf8LenStr).sum := by
  rcases foldl_progress (splitLines s) initState with ⟨h1, h2⟩
  refine ⟨?_, ?_, ?_⟩
  · simpa [initState] using h1
  · have he : (process_file s).progress =
        cumSums 0 ((splitLines s).map utf8LenStr) := by
      simpa [initState] using h1
    rw [he]
    exact cumSums_chain _ 0
  · simpa [initState] using h2

/-- Claim C8: resolving the detected encoding label is total
(`unwrap_or(UTF_8)`, main.rs:135) — an unresolvable label falls back to
UTF-8; decoding anomalies become U+FFFD replacement characters and
processing always completes with well-defined stats. -/
theorem C8_encoding_never_fails :
    for_label_or_utf8 none = UTF_8 ∧
    (∀ e : Encoding, for_label_or_utf8 (some e) = e) ∧
    decodeUtf8Lossy [0xFF, 0x41] = [replChar, 'A'] ∧
    (∀ (r : Option Encoding) (bs : List Nat),
      (processBytes r bs).stats.total_lines =
        (splitLines ((for_label_or_utf8 r).decode bs)).length ∧
      statsInv (processBytes r bs).stats) := by
  refine ⟨rfl, fun e => rfl, by decide, ?_⟩
  intro r bs
  constructor
  · have h := foldl_total (splitLines ((for_label_or_utf8 r).decode bs))
      initState
    simpa [processBytes, process_file, runLines, initState, Stats.zero]
      using h
  · exact foldl_statsInv _ initState rfl

/-- Claim C9: in batch mode every per-file error is reported to the error
channel with the offending path, the failing file's stats are not merged
into the run total, and the fold continues over all remaining files
(main.rs:76-87). -/
theorem C9_batch_errors (entries : List (String × Except String Stats)) :
    (runBatch entries).total =
      (entries.filterMap (fun e => match e.2 with
        | .ok s => some s
        | .error _ => none)).foldl addStats Stats.zero ∧
    (runBatch entries).errs =
      entries.filterMap (fun e => match e.2 with
        | .ok _ => none
        | .error m => some (e.1, m)) := by
  have h := foldl_batch entries ⟨Stats.zero, []⟩
  simpa [runBatch] using h

/-- Claim C10: `process_file` is deterministic — equal inputs yield equal
outputs and counters — and the dedup loop's observable behaviour depends on
the seen-line set only through membership, never through its iteration
order or representation. -/
theorem C10_deterministic :
    (∀ s : List Char, process_file s = process_file s) ∧
    (∀ (lines : List (List Char)) (s1 s2 : List (List Char)) (stats : Stats)
      (out : List Char) (w : List (List Char)) (br : Nat) (pr : List Nat),
      (∀ k, k ∈ s1 ↔ k ∈ s2) →
      observe (lines.foldl processLine ⟨s1, stats, out, w, br, pr⟩) =
        observe (lines.foldl processLine ⟨s2, stats, out, w, br, pr⟩)) :=
  ⟨fun _ => rfl, fun lines => foldl_seen_equiv lines⟩

/-- Claim C2 (counterexample): on input `"a\na \n"` the code writes only
`"a"` — the second line's key after `str::trim_end` is `"a"`, already seen —
whereas first occurrences of the distinct terminator-stripped keys would be
`"a"` and `"a "`. -/
theorem C2_counterexample :
    (process_file "a\na \n".toList).written ≠
      firstOccur ((splitLines "a\na \n".toList).map stripTerm) := by
  rw [← firstOccurFrom_nil]
  decide

/-- Claim C2 (amended): a line is written iff its trailing-whitespace
stripped text (Rust `str::trim_end`, which strips all trailing whitespace,
not only the line terminator) is not in the seen set at the time of the
check; every written key is inserted immediately; the written sequence is
the sequence of first occurrences of the distinct `trim_end` keys in input
order; the spec's apple/banana scenario holds. -/
theorem C2_write_iff_unseen :
    (∀ s : List Char,
      (process_file s).written = firstOccur ((splitLines s).map trimEnd)) ∧
    (∀ (lines : List (List Char)) (i : Nat) (k : List Char),
      lines[i]? = some k →
      (runLines (lines.take (i + 1))).written =
        (runLines (lines.take i)).written ++
          (if trimEnd k ∈ (runLines (lines.take i)).seen_lines then []
           else [trimEnd k]) ∧
      (runLines (lines.take (i + 1))).seen_lines =
        (if trimEnd k ∈ (runLines (lines.take i)).seen_lines then
          (runLines (lines.take i)).seen_lines
         else trimEnd k :: (runLines (lines.take i)).seen_lines)) ∧
    (process_file "apple\nbanana\napple\norange\nbanana".toList).stats =
      ⟨5, 2, 3⟩ ∧
    (process_file "apple\nbanana\napple\norange\nbanana".toList).output =
      "apple\nbanana\norange\n".toList := by
  refine ⟨?_, ?_, by decide, by decide⟩
  · intro s
    have h := (foldl_written_seen (splitLines s) initState).1
    rw [← firstOccurFrom_nil]
    simpa [initState] using h
  · intro lines i k hk
    rw [runLines_take_succ lines i k hk]
    by_cases hm : trimEnd k ∈ (runLines (lines.take i)).seen_lines
    · constructor <;> simp [processLine, hm]
    · constructor <;> simp [processLine, hm]

/-- Witness for C2 at the concrete line list `[["a"], ["a"]]`, index 1:
the second identical line is suppressed and nothing new is inserted. -/
theorem C2_write_iff_unseen_witness :
    (runLines ([[('a' : Char)], [('a' : Char)]].take (1 + 1))).written =
      (runLines ([[('a' : Char)], [('a' : Char)]].take 1)).written ++
        (if trimEnd [('a' : Char)] ∈
            (runLines ([[('a' : Char)], [('a' : Char)]].take 1)).seen_lines
         then [] else [trimEnd [('a' : Char)]]) ∧
    (runLines ([[('a' : Char)], [('a' : Char)]].take (1 + 1))).seen_lines =
      (if trimEnd [('a' : Char)] ∈
          (runLines ([[('a' : Char)], [('a' : Char)]].take 1)).seen_lines
       then (runLines ([[('a' : Char)], [('a' : Char)]].take 1)).seen_lines
       else trimEnd [('a' : Char)] ::
         (runLines ([[('a' : Char)], [('a' : Char)]].take 1)).seen_lines) :=
  C2_write_iff_unseen.2.1 [[('a' : Char)], [('a' : Char)]] 1 [('a' : Char)]
    (by decide)

/-- Claim C3 (counterexample): the dedup key is not obtained by stripping
exactly the trailing line terminator — `str::trim_end` also strips a
trailing space on `"a \n"` — and a bare CR does not terminate a line, so
`"a\rb"` is one line with key `"a\rb"`, not two lines `"a"`, `"b"`. -/
theorem C3_counterexample :
    (process_file "a \n".toList).written ≠
      (splitLines "a \n".toList).map stripTerm ∧
    (process_file "a\rb".toList).written ≠
      [[('a' : Char)], [('b' : Char)]] := by
  decide

/-- Claim C3 (amended): lines are terminated by LF only (a bare CR does not
end a line); each line's dedup key strips all trailing Unicode whitespace
(Rust `str::trim_end` — subsuming LF, CRLF and trailing CR, but also
spaces and tabs); every written line is followed by exactly one canonical
newline in the output, regardless of the source terminator style. -/
theorem C3_terminator_normalization :
    (∀ s : List Char, (process_file s).output =
      List.flatten ((process_file s).written.map (fun k => k ++ ['\n']))) ∧
    (∀ (s k : List Char), k ∈ (process_file s).written →
      trimEnd k = k ∧ '\n' ∉ k) ∧
    splitLines "a\rb".toList = ["a\rb".toList] ∧
    (process_file "a\r\nb\nc".toList).output = "a\nb\nc\n".toList := by
  refine ⟨?_, ?_, by decide, by decide⟩
  · intro s
    exact foldl_output (splitLines s) initState rfl
  · intro s k hk
    have hw : (process_file s).written =
        firstOccurFrom [] ((splitLines s).map trimEnd) := by
      have h := (foldl_written_seen (splitLines s) initState).1
      simpa [initState] using h
    rw [hw] at hk
    rcases (firstOccurFrom_sound _ []).2 k hk with ⟨hmem, _⟩
    rcases List.mem_map.mp hmem with ⟨l, hl, rfl⟩
    exact ⟨trimEnd_idem l, nl_not_mem_key s l hl⟩

/-- Witness for C3 at input `"x \r\n"`: the single written key is `"x"`,
trim-fixed and newline-free. -/
theorem C3_terminator_normalization_witness :
    [('x' : Char)] ∈ (process_file "x \r\n".toList).written ∧
    trimEnd [('x' : Char)] = [('x' : Char)] ∧ '\n' ∉ [('x' : Char)] := by
  refine ⟨by decide, ?_, ?_⟩ <;>
    cases C3_terminator_normalization.2.1 "x \r\n".toList [('x' : Char)]
      (by decide) with
    | intro h1 h2 => first | exact h1 | exact h2

/-- Claim C7: the pipeline is idempotent — reprocessing its own output
finds zero duplicates and writes the identical sequence of lines, giving
byte-identical output. -/
theorem C7_idempotent (s : List Char) :
    (process_file ((process_file s).output)).stats.duplicate_lines = 0 ∧
    (process_file ((process_file s).output)).written =
      (process_file s).written ∧
    (process_file ((process_file s).output)).output =
      (process_file s).output := by
  have hw : (process_file s).written =
      firstOccurFrom [] ((splitLines s).map trimEnd) := by
    have h := (foldl_written_seen (splitLines s) initState).1
    simpa [initState] using h
  have hnd : (process_file s).written.Nodup := by
    rw [hw]; exact (firstOccurFrom_sound _ []).1
  have hkeys : ∀ k ∈ (process_file s).written,
      trimEnd k = k ∧ '\n' ∉ k := by
    intro k hk
    rw [hw] at hk
    rcases (firstOccurFrom_sound _ []).2 k hk with ⟨hmem, _⟩
    rcases List.mem_map.mp hmem with ⟨l, hl, rfl⟩
    exact ⟨trimEnd_idem l, nl_not_mem_key s l hl⟩
  have hout : (process_file s).output =
      List.flatten ((process_file s).written.map (fun k => k ++ ['\n'])) :=
    foldl_output (splitLines s) initState rfl
  have hsplit : splitLines ((process_file s).output) =
      (process_file s).written.map (fun k => k ++ ['\n']) := by
    rw [hout]
    exact splitLines_flatten _ (fun k hk => (hkeys k hk).2)
  rcases foldl_fresh_keys (process_file s).written initState hnd
      (fun k hk => (hkeys k hk).1) (fun k _ hk => (List.not_mem_nil k) hk)
    with ⟨h1, h2, h3⟩
  refine ⟨?_, ?_, ?_⟩
  · show (runLines (splitLines ((process_file s).output))).stats.duplicate_lines = 0
    rw [hsplit]
    exact h1
  · show (runLines (splitLines ((process_file s).output))).written =
      (process_file s).written
    rw [hsplit]
    unfold runLines
    rw [h2]
    rfl
  · show (runLines (splitLines ((process_file s).output))).output =
      (process_file s).output
    rw [hsplit]
    unfold runLines
    rw [h3, hout]
    rfl

/-- Witness for C10: two membership-equivalent set representations yield
the same observable run. -/
theorem C10_deterministic_witness :
    observe ([[('b' : Char)]].foldl processLine
      ⟨[[('a' : Char)]], Stats.zero, [], [], 0, []⟩) =
    observe ([[('b' : Char)]].foldl processLine
      ⟨[[('a' : Char)], [('a' : Char)]], Stats.zero, [], [], 0, []⟩) :=
  C10_deterministic.2 [[('b' : Char)]] [[('a' : Char)]]
    [[('a' : Char)], [('a' : Char)]] Stats.zero [] [] 0 []
    (fun k => by simp)

end Dedupler
